import Mathlib

/-!
Shallow embedding of the media timing introspection engine of
`src/sticker_convert/utils/media/codec_info.py`, together with theorems
settling the specification claims about it.

Python floats are modelled as exact rationals; `str(value)` digit extraction is
modelled for nonnegative values printed in positional decimal form.  Fallible
paths (exceptions) are modelled with `Option`.
-/

namespace StickerConvert

/-- Python values of type `Union[int, float]` as they flow through
`durations_gcd` and `likely_int`: an exact numeric value together with the tag
telling whether the Python object is a `float` (`isFloat = true`) or an
`int`. -/
structure PyNum where
  val : ℚ
  isFloat : Bool
deriving DecidableEq

/-- Python `i * x` for `i : Union[int, float]` and an `int` scale `x`: the
numeric values multiply, a `float` stays a `float` and an `int` stays an
`int`. -/
def PyNum.mulNat (i : PyNum) (x : ℕ) : PyNum := ⟨i.val * x, i.isFloat⟩

/-- Embedding of `lcm(a, b) = abs(a * b) // gcd(a, b)` from codec_info.py, on
the natural numbers (fraction denominators) it is applied to. -/
def lcm (a b : ℕ) : ℕ := a * b / Nat.gcd a b

/-- Embedding of `rounding(value) = Decimal(value).quantize(0, ROUND_HALF_UP)`:
round to the nearest integer, ties away from zero. -/
def rounding (q : ℚ) : ℤ := if 0 ≤ q then ⌊q + 1 / 2⌋ else -⌊-q + 1 / 2⌋

/-- Embedding of `fraction_gcd(x, y)`: `Fraction(gcd(a, c), lcm(b, d))` where
`a, b` and `c, d` are the numerator/denominator pairs of `x` and `y`; `mkRat`
performs the normalisation the `Fraction` constructor performs. -/
def fraction_gcd (x y : ℚ) : ℚ := mkRat (Int.gcd x.num y.num) (lcm x.den y.den)

/-- Embedding of `fractions_gcd(*fractions)`: pop the first element and fold
`fraction_gcd` over the rest, left to right (the `0` result for an empty
argument list models a call the sources never make). -/
def fractions_gcd : List ℚ → ℚ
  | [] => 0
  | x :: xs => xs.foldl fraction_gcd x

/-- Embedding of `get_five_dec_place(value)`, i.e.
`str(value).split(".")[1][:5].ljust(5, "0")`, for a nonnegative value printed
in positional decimal form: the first five digits of the fractional part, as a
digit list (truncated and zero padded). -/
def get_five_dec_place (q : ℚ) : List ℕ :=
  (List.range 5).map fun i => ⌊q * 10 ^ (i + 1)⌋₊ % 10

/-- Embedding of `likely_int(value)`: an `int` is always accepted; a `float` is
accepted when its first five fractional digits read `99999` or `00000`. -/
def likely_int (i : PyNum) : Bool :=
  if i.isFloat then
    decide (get_five_dec_place i.val = [9, 9, 9, 9, 9]) ||
      decide (get_five_dec_place i.val = [0, 0, 0, 0, 0])
  else true

/-- Python `math.gcd(*ints)`: nonnegative greatest common divisor of a list of
integers, `0` on the empty list. -/
def math_gcd : List ℤ → ℕ
  | [] => 0
  | a :: l => Int.gcd a (math_gcd l)

/-- Greatest common divisor of a list of naturals (`0` on the empty list). -/
def nat_gcd_list (l : List ℕ) : ℕ := l.foldr Nat.gcd 0

/-- Embedding of `durations_gcd(*durations)` exactly as written, including the
truthiness semantics of its two generator expressions:
`any(i for i in durations if isinstance(i, float))` is true when some `float`
element is nonzero, and `all(i for i in durations if likely_int(i))` is true
when every element passing `likely_int` is nonzero.  `none` models the
`TypeError` raised by `math.gcd` on a `float` argument (reachable only when
every `float` in the list equals `0.0`). -/
def durations_gcd (l : List PyNum) : Option ℚ :=
  if l.any (fun i => i.isFloat && i.val != 0) then
    if l.all (fun i => !likely_int i || i.val != 0) then
      some ((math_gcd (l.map fun i => rounding i.val) : ℚ))
    else
      match [3, 6, 7, 9, 11, 13].find? (fun x => l.all fun i => likely_int (i.mulNat x)) with
      | some x => some ((math_gcd (l.map fun i => rounding (i.val * x)) : ℚ) / (x : ℚ))
      | none =>
        match (l.map PyNum.val).min? with
        | some m => some m
        | none => none
  else
    if l.any (fun i => i.isFloat) then none
    else some ((math_gcd (l.map fun i => i.val.num) : ℚ))

/-- Reduction policy of `durations_gcd` as the specification words it: plain
integer GCD over denominator 1 when every sample is integral (no `float`
present, or every sample passes `likely_int`); otherwise probe the denominators
3, 6, 7, 9, 11, 13 in order and use the first making every scaled sample pass
`likely_int`; otherwise fall back to the minimum observed duration. -/
def durations_gcd_spec (l : List PyNum) : Option ℚ :=
  if l.all (fun i => !i.isFloat) || l.all likely_int then
    some ((math_gcd (l.map fun i => rounding i.val) : ℚ))
  else
    match [3, 6, 7, 9, 11, 13].find? (fun x => l.all fun i => likely_int (i.mulNat x)) with
    | some x => some ((math_gcd (l.map fun i => rounding (i.val * x)) : ℚ) / (x : ℚ))
    | none =>
      match (l.map PyNum.val).min? with
      | some m => some m
      | none => none

/-- Little-endian integer interpretation of a byte list (`int.from_bytes(...,
"little")`). -/
def bytes_le (l : List ℕ) : ℕ := l.foldr (fun b acc => b + 256 * acc) 0

/-- Embedding of the duration-field decode of
`_get_file_fps_frames_duration_webp`, applied to the 4 bytes read at marker
offset +20: `frame_duration_32[:-1] + bytes(int(frame_duration_32[-1]) &
0b11111100)`.  Python `bytes(n)` for an integer `n` is a string of `n` zero
bytes, so the code appends `(last byte & 0xFC)` zero bytes to the three low
bytes before the little-endian conversion. -/
def webp_frame_duration (b : List ℕ) : ℕ :=
  bytes_le (b.take 3 ++ List.replicate ((b.getD 3 0) &&& 0xFC) 0)

/-- Little-endian interpretation the specification describes for the same 4
bytes: the three low bytes together with the fourth byte masked by
`0b1111_1100`. -/
def webp_frame_duration_masked (b : List ℕ) : ℕ :=
  bytes_le (b.take 3 ++ [(b.getD 3 0) &&& 0xFC])

/-- Embedding of the accumulation loop `if frame_duration not in durations and
frame_duration != 0: durations.append(frame_duration)`. -/
def collect_durations (acc : List ℕ) : List ℕ → List ℕ
  | [] => acc
  | d :: rest => collect_durations (if d ∉ acc ∧ d ≠ 0 then acc ++ [d] else acc) rest

/-- Embedding of the aggregation stage of `_get_file_fps_frames_duration_webp`,
from the list of per-frame decoded durations (one per `ANMF` chunk found by the
scan).  `none` models the `ZeroDivisionError` raised by
`total_duration / duration_gcd` when `durations_gcd` of the collected distinct
nonzero durations is `Fraction(0, 1)` (every chunk duration zero). -/
def webp_fps_frames_duration (durs : List ℕ) : Option (ℚ × ℕ × ℕ) :=
  let total := durs.sum
  let frames := durs.length
  let durations := collect_durations [] durs
  if frames ≤ 1 then some (0, 1, 0)
  else if durations.length = 1 then some ((frames : ℚ) / (total : ℚ) * 1000, frames, total)
  else
    (durations_gcd (durations.map fun d : ℕ => (⟨(d : ℚ), false⟩ : PyNum))).bind fun g =>
      if g = 0 then none
      else some (((total : ℚ) / g) / (total : ℚ) * 1000, frames, total)

/-- Full chunked-raster strategy: decode each found `ANMF` chunk's 4-byte
duration field, then aggregate. -/
def webp_strategy (chunks : List (List ℕ)) : Option (ℚ × ℕ × ℕ) :=
  webp_fps_frames_duration (chunks.map webp_frame_duration)

/-- Embedding of `_get_file_fps_frames_duration_pillow` with
`frames_only = False`.  `hasNFrames` models `"n_frames" in dir(im)`;
`frameDurs` lists, per frame, the value of `im.info.get("duration", 1000)`
(`none` when the attribute is absent, so the default 1000 applies; Pillow
reports integral milliseconds). -/
def pillow_fps_frames_duration (hasNFrames : Bool) (frameDurs : List (Option ℕ)) :
    ℚ × ℕ × ℕ :=
  if hasNFrames then
    let vals := frameDurs.map fun o => o.getD 1000
    let frames := frameDurs.length
    let total := vals.sum
    let durations := collect_durations [] vals
    let fps : ℚ :=
      if frames = 0 ∨ total = 0 then 0
      else if durations.length = 1 then (frames : ℚ) / (total : ℚ) * 1000
      else
        ((durations_gcd (durations.map fun d : ℕ => (⟨(d : ℚ), false⟩ : PyNum))).map
          fun g => ((total : ℚ) / g) / (total : ℚ) * 1000).getD 0
    (fps, frames, total)
  else (0, 1, 0)

/-- Embedding of `_get_file_frames_duration_av` with `frames_only = False` and
`frames_to_iterate = None` (full decode).  `pts` lists the presentation
timestamps of the decoded video frames in order; `tbNum / tbDen` is the last
frame's `time_base` in seconds; `durationMeta` is the container duration
already rounded to milliseconds (`0` when the container reports none).  The
`frame_count` returned is the final `enumerate` index, and the duration is in
integer milliseconds. -/
def av_frames_duration (tbNum tbDen : ℕ) (pts : List ℤ) (durationMeta : ℕ) : ℕ × ℤ :=
  pts.getLast?.elim (0, 0) fun lastPts =>
    let frameCount := pts.length - 1
    let timeBaseMs : ℚ := (tbNum : ℚ) / (tbDen : ℚ) * 1000
    if frameCount ≤ 1 ∨ durationMeta ≠ 0 then (frameCount, (durationMeta : ℤ))
    else
      let durationNMinusOne : ℚ := (lastPts : ℚ) * timeBaseMs
      let msPerFrame : ℚ := durationNMinusOne / ((frameCount : ℚ) - 1)
      (frameCount, rounding ((frameCount : ℚ) * msPerFrame))

/-- Files the introspection facade dispatches over, one constructor per
extraction strategy, each carrying the data the corresponding decoder
exposes. -/
inductive MediaFile where
  | tgs (fps frames : ℕ)
  | webp (chunks : List (List ℕ))
  | pillow (hasNFrames : Bool) (frameDurs : List (Option ℕ))
  | av (tbNum tbDen : ℕ) (pts : List ℤ) (durationMeta streamFrames : ℕ)
deriving DecidableEq

/-- Embedding of `CodecInfo.get_file_fps_frames_duration`: dispatch on the
extension class and assemble `(fps, frames, duration)`.  `none` propagates the
chunked-raster division by zero. -/
def get_file_fps_frames_duration : MediaFile → Option (ℚ × ℕ × ℚ)
  | .tgs fps frames =>
    some ((fps : ℚ), frames, if 0 < fps then ((frames * 1000 / fps : ℕ) : ℚ) else 0)
  | .webp chunks =>
    (webp_strategy chunks).map fun r => (r.1, r.2.1, (r.2.2 : ℚ))
  | .pillow h durs =>
    some ((pillow_fps_frames_duration h durs).1, (pillow_fps_frames_duration h durs).2.1,
      ((pillow_fps_frames_duration h durs).2.2 : ℚ))
  | .av tbNum tbDen pts meta _ =>
    some (if 0 < (av_frames_duration tbNum tbDen pts meta).2 then
        ((av_frames_duration tbNum tbDen pts meta).1 : ℚ) /
          ((av_frames_duration tbNum tbDen pts meta).2 : ℚ) * 1000
      else 0,
      (av_frames_duration tbNum tbDen pts meta).1,
      ((av_frames_duration tbNum tbDen pts meta).2 : ℚ))

/-- Normalised per-file record assembled by `CodecInfo.__init__`. -/
structure MediaRecord where
  fps : ℚ
  frames : ℕ
  duration : ℚ
  isAnimated : Bool
deriving DecidableEq

/-- Embedding of `CodecInfo.__init__`: run the facade and derive
`is_animated = fps > 1`. -/
def codecInfo (f : MediaFile) : Option MediaRecord :=
  (get_file_fps_frames_duration f).map fun r => ⟨r.1, r.2.1, r.2.2, decide (1 < r.1)⟩

/-- Embedding of `CodecInfo.get_file_frames(file, check_anim=True)`.  For the
raster classes the Pillow `frames_only` fast path reports `n_frames` (for a
chunked-raster file Pillow's `n_frames` is the number of `ANMF` chunks, one
for a static image); for other containers the stream's own frame metadata is
used when it exceeds 1, else a decode bounded to 2 frames. -/
def get_file_frames_check_anim : MediaFile → ℕ
  | .tgs _ frames => frames
  | .webp chunks => if chunks.length = 0 then 1 else chunks.length
  | .pillow h durs => if h then durs.length else 1
  | .av _ _ pts _ streamFrames =>
    if 1 < streamFrames then streamFrames else min (pts.length - 1) 2

/-- Embedding of `CodecInfo.is_anim`: animated when the frame count probed with
`check_anim=True` exceeds 1. -/
def is_anim (f : MediaFile) : Bool := decide (1 < get_file_frames_check_anim f)

/-! Helper lemmas about list GCDs and the duration-collection loop. -/

theorem nat_gcd_list_cons (a : ℕ) (t : List ℕ) :
    nat_gcd_list (a :: t) = Nat.gcd a (nat_gcd_list t) := rfl

theorem nat_gcd_list_dvd {l : List ℕ} {x : ℕ} (hx : x ∈ l) : nat_gcd_list l ∣ x := by
  induction l with
  | nil => cases hx
  | cons a t ih =>
    rw [nat_gcd_list_cons]
    rcases List.mem_cons.mp hx with rfl | hx
    · exact Nat.gcd_dvd_left _ _
    · exact (Nat.gcd_dvd_right a _).trans (ih hx)

theorem dvd_nat_gcd_list {l : List ℕ} {d : ℕ} (h : ∀ x ∈ l, d ∣ x) : d ∣ nat_gcd_list l := by
  induction l with
  | nil => exact dvd_zero d
  | cons a t ih =>
    rw [nat_gcd_list_cons]
    exact Nat.dvd_gcd (h a (by simp)) (ih fun x hx => h x (by simp [hx]))

theorem nat_gcd_list_eq_of_mem_iff {l₁ l₂ : List ℕ} (h : ∀ x, x ∈ l₁ ↔ x ∈ l₂) :
    nat_gcd_list l₁ = nat_gcd_list l₂ :=
  Nat.dvd_antisymm (dvd_nat_gcd_list fun x hx => nat_gcd_list_dvd ((h x).mpr hx))
    (dvd_nat_gcd_list fun x hx => nat_gcd_list_dvd ((h x).mp hx))

theorem nat_gcd_list_of_all_eq {l : List ℕ} {d : ℕ} (hne : l ≠ []) (h : ∀ x ∈ l, x = d) :
    nat_gcd_list l = d := by
  induction l with
  | nil => exact absurd rfl hne
  | cons a t ih =>
    rw [nat_gcd_list_cons, h a (by simp)]
    rcases eq_or_ne t [] with rfl | ht
    · simp [nat_gcd_list]
    · rw [ih ht fun x hx => h x (by simp [hx]), Nat.gcd_self]

theorem nat_gcd_list_pos {l : List ℕ} {x : ℕ} (hx : x ∈ l) (hpos : 0 < x) :
    0 < nat_gcd_list l := by
  rcases Nat.eq_zero_or_pos (nat_gcd_list l) with h0 | h
  · exact absurd (Nat.eq_zero_of_zero_dvd (h0 ▸ nat_gcd_list_dvd hx)) hpos.ne'
  · exact h

theorem sum_of_all_eq {l : List ℕ} {d : ℕ} (h : ∀ x ∈ l, x = d) : l.sum = l.length * d := by
  induction l with
  | nil => simp
  | cons a t ih =>
    rw [List.sum_cons, List.length_cons, h a (by simp),
      ih fun x hx => h x (by simp [hx])]
    ring

theorem mem_collect_durations {x : ℕ} :
    ∀ (l acc : List ℕ), x ∈ collect_durations acc l ↔ x ∈ acc ∨ (x ∈ l ∧ x ≠ 0) := by
  intro l
  induction l with
  | nil => intro acc; simp [collect_durations]
  | cons d rest ih =>
    intro acc
    rw [collect_durations, ih]
    by_cases hd : d ∉ acc ∧ d ≠ 0
    · rw [if_pos hd]
      obtain ⟨hd1, hd2⟩ := hd
      simp only [List.mem_append, List.mem_cons, List.mem_singleton, List.not_mem_nil,
        or_false]
      constructor
      · rintro ((h | rfl) | ⟨h, hx⟩)
        · exact Or.inl h
        · exact Or.inr ⟨Or.inl rfl, hd2⟩
        · exact Or.inr ⟨Or.inr h, hx⟩
      · rintro (h | ⟨rfl | h, hx⟩)
        · exact Or.inl (Or.inl h)
        · exact Or.inl (Or.inr rfl)
        · exact Or.inr ⟨h, hx⟩
    · rw [if_neg hd]
      rcases not_and_or.mp hd with hd | hd
      · rw [not_not] at hd
        simp only [List.mem_cons]
        constructor
        · rintro (h | ⟨h, hx⟩)
          · exact Or.inl h
          · exact Or.inr ⟨Or.inr h, hx⟩
        · rintro (h | ⟨rfl | h, hx⟩)
          · exact Or.inl h
          · exact Or.inl hd
          · exact Or.inr ⟨h, hx⟩
      · rw [not_not] at hd
        subst hd
        simp only [List.mem_cons]
        constructor
        · rintro (h | ⟨h, hx⟩)
          · exact Or.inl h
          · exact Or.inr ⟨Or.inr h, hx⟩
        · rintro (h | ⟨rfl | h, hx⟩)
          · exact Or.inl h
          · exact absurd rfl hx
          · exact Or.inr ⟨h, hx⟩

theorem math_gcd_natCast (l : List ℕ) : math_gcd (l.map fun d : ℕ => (d : ℤ)) = nat_gcd_list l := by
  induction l with
  | nil => rfl
  | cons a t ih =>
    rw [List.map_cons,
      show math_gcd ((a : ℤ) :: t.map fun d : ℕ => (d : ℤ)) =
        Int.gcd (a : ℤ) (math_gcd (t.map fun d : ℕ => (d : ℤ))) from rfl,
      ih, nat_gcd_list_cons]
    simp only [Int.gcd, Int.natAbs_ofNat]

theorem durations_gcd_int (l : List ℕ) :
    durations_gcd (l.map fun d : ℕ => (⟨(d : ℚ), false⟩ : PyNum)) = some ((nat_gcd_list l : ℕ) : ℚ) := by
  have h1 : (l.map fun d : ℕ => (⟨(d : ℚ), false⟩ : PyNum)).any
      (fun i => i.isFloat && i.val != 0) = false := by
    rw [List.any_eq_false]
    intro x hx
    obtain ⟨d, _, rfl⟩ := List.mem_map.mp hx
    simp
  have h2 : (l.map fun d : ℕ => (⟨(d : ℚ), false⟩ : PyNum)).any (fun i => i.isFloat) = false := by
    rw [List.any_eq_false]
    intro x hx
    obtain ⟨d, _, rfl⟩ := List.mem_map.mp hx
    simp
  have h3 : ((l.map fun d : ℕ => (⟨(d : ℚ), false⟩ : PyNum)).map fun i => i.val.num) =
      l.map fun d : ℕ => (d : ℤ) := by
    rw [List.map_map]
    exact List.map_congr_left fun d _ => Rat.num_natCast d
  rw [durations_gcd, h1, h2]
  simp only [Bool.false_eq_true, if_false]
  rw [h3, math_gcd_natCast]

theorem collect_gcd_eq {durs : List ℕ} (hpos : ∀ d ∈ durs, 0 < d) :
    nat_gcd_list (collect_durations [] durs) = nat_gcd_list durs :=
  nat_gcd_list_eq_of_mem_iff fun x => by
    rw [mem_collect_durations]
    simp only [List.not_mem_nil, false_or]
    exact ⟨fun h => h.1, fun h => ⟨h, (hpos x h).ne'⟩⟩

theorem bytes_le_append_zeros (l : List ℕ) (k : ℕ) :
    bytes_le (l ++ List.replicate k 0) = bytes_le l := by
  induction l with
  | nil =>
    simp only [List.nil_append]
    induction k with
    | zero => rfl
    | succ k ih => simpa [List.replicate_succ, bytes_le] using ih
  | cons b t ih => simp [bytes_le, List.cons_append] at ih ⊢; omega

/-! Claim theorems. -/

/-- C4 (the claim is right, the code is wrong): the chunked-raster duration
decode never incorporates the 4th byte.  `bytes(n)` builds `n` zero bytes, so
`webp_frame_duration` always equals the little-endian value of the three low
bytes; on the field `00 00 00 04` (top six bits of the 4th byte holding 1) the
code yields `0` while the masked interpretation the claim describes yields
`67108864`. -/
theorem c4_webp_duration_mask_bug :
    (∀ b : List ℕ, webp_frame_duration b = bytes_le (b.take 3)) ∧
      webp_frame_duration [0, 0, 0, 4] = 0 ∧
      webp_frame_duration_masked [0, 0, 0, 4] = 67108864 := by
  refine ⟨fun b => bytes_le_append_zeros _ _, by decide, by decide⟩

/-- C10 (the claim is right, the code is wrong): with two frame chunks whose
duration fields decode to 0, the distinct nonzero duration list is empty,
`durations_gcd()` is `Fraction(0, 1)`, and `total_duration / duration_gcd`
divides by zero (`none` in the model), both at the duration level and from the
raw chunk bytes. -/
theorem c10_webp_zero_division :
    webp_fps_frames_duration [0, 0] = none ∧
      webp_strategy [[0, 0, 0, 0], [0, 0, 0, 0]] = none :=
  ⟨by decide, by decide⟩

/-- C1 counterexample: a single-frame generic-raster file whose frame metadata
carries `duration = 40` yields the record `(25, 1, 40)`, not `(0, 1, 0)`. -/
theorem c1_single_frame_counterexample :
    pillow_fps_frames_duration true [some 40] = (25, 1, 40) ∧
      pillow_fps_frames_duration true [some 40] ≠ (0, 1, 0) := by
  have h : pillow_fps_frames_duration true [some 40] = (25, 1, 40) := by
    norm_num [pillow_fps_frames_duration, collect_durations, durations_gcd]
  refine ⟨h, h ▸ by norm_num⟩

/-- C1 amended: a single-frame generic-raster extraction returns frames 1 and
the frame's duration attribute `d` (default 1000) as the total duration, with
`fps = 1000 / d`; the record `(0, 1, 0)` arises exactly when the duration
attribute equals `0`. -/
theorem c1_single_frame_amended (d : Option ℕ) :
    pillow_fps_frames_duration true [d] =
      if d.getD 1000 = 0 then (0, 1, 0)
      else (1000 / (d.getD 1000 : ℚ), 1, d.getD 1000) := by
  rcases d with _ | v
  · norm_num [pillow_fps_frames_duration, collect_durations, Option.getD]
  · by_cases hv0 : v = 0
    · subst hv0
      simp [pillow_fps_frames_duration, collect_durations]
    · simp only [Option.getD_some]
      rw [if_neg hv0]
      have hvQ : ((v : ℕ) : ℚ) ≠ 0 := by exact_mod_cast hv0
      simp [pillow_fps_frames_duration, collect_durations, hv0]
      rw [inv_mul_eq_div]

/-- C6: for a chunked-raster frame list whose per-frame durations are positive
multiples of a common integer tick `t` (the tick being their GCD), the strategy
returns fps exactly `1000 / t` together with the frame count and total
duration; when a single distinct duration is observed the GCD search is
skipped and the direct `frames / total * 1000` computation yields the same
value; in particular five uniform 100 ms frames give
`{fps: 10, frames: 5, duration: 500}`. -/
theorem c6_webp_fps_gcd :
    (∀ durs : List ℕ, (∀ d ∈ durs, 0 < d) → 2 ≤ durs.length →
      webp_fps_frames_duration durs =
        some (1000 / (nat_gcd_list durs : ℚ), durs.length, durs.sum)) ∧
    webp_fps_frames_duration [100, 100, 100, 100, 100] = some (10, 5, 500) := by
  constructor
  · intro durs hpos hlen
    have hne : durs ≠ [] := by rintro rfl; simp at hlen
    have htpos : 0 < nat_gcd_list durs := by
      obtain ⟨d, hd⟩ := List.exists_mem_of_ne_nil durs hne
      exact nat_gcd_list_pos hd (hpos d hd)
    have htot : 0 < durs.sum := List.sum_pos durs hpos hne
    have hlenQ : ((durs.length : ℕ) : ℚ) ≠ 0 := by
      have : durs.length ≠ 0 := by omega
      exact_mod_cast this
    have htotQ : ((durs.sum : ℕ) : ℚ) ≠ 0 := by exact_mod_cast htot.ne'
    have hgcdQ : ((nat_gcd_list durs : ℕ) : ℚ) ≠ 0 := by exact_mod_cast htpos.ne'
    simp only [webp_fps_frames_duration]
    rw [if_neg (by omega)]
    by_cases hD : (collect_durations [] durs).length = 1
    · rw [if_pos hD]
      obtain ⟨d, hd⟩ := List.length_eq_one.mp hD
      have hall : ∀ x ∈ durs, x = d := by
        intro x hx
        have hxc : x ∈ collect_durations [] durs := by
          rw [mem_collect_durations]
          exact Or.inr ⟨hx, (hpos x hx).ne'⟩
        rw [hd] at hxc
        simpa using hxc
      have hgcd : nat_gcd_list durs = d := nat_gcd_list_of_all_eq hne hall
      have hsum : durs.sum = durs.length * d := sum_of_all_eq hall
      refine congrArg some (Prod.ext ?_ rfl)
      rw [hgcd] at hgcdQ ⊢
      rw [hsum]
      push_cast
      field_simp
      ring
    · rw [if_neg hD, durations_gcd_int, collect_gcd_eq hpos, Option.some_bind,
        if_neg hgcdQ]
      refine congrArg some (Prod.ext ?_ rfl)
      rw [div_div, mul_comm ((nat_gcd_list durs : ℚ)) ((durs.sum : ℕ) : ℚ),
        div_mul_cancel_left₀ htotQ, inv_mul_eq_div]
  · norm_num [webp_fps_frames_duration, collect_durations, durations_gcd]

/-- Witness for the hypotheses of C6, at the concrete chunk durations
`[40, 60]` (tick 20, apparent fps 50). -/
theorem c6_webp_fps_gcd_witness :
    webp_fps_frames_duration [40, 60] =
      some (1000 / (nat_gcd_list [40, 60] : ℚ), [40, 60].length, [40, 60].sum) :=
  c6_webp_fps_gcd.1 [40, 60] (by decide) (by decide)

theorem range_map_getLast? (N : ℕ) (f : ℕ → ℤ) :
    ((List.range (N + 1)).map f).getLast? = some (f N) := by
  rw [List.range_succ, List.map_append, List.map_singleton, List.getLast?_concat]

theorem getLast?_mem {l : List ℤ} {a : ℤ} (h : l.getLast? = some a) : a ∈ l := by
  obtain ⟨hne, hx⟩ := List.mem_getLast?_eq_getLast (show a ∈ l.getLast? by rw [Option.mem_def, h])
  exact hx ▸ List.getLast_mem hne

theorem rounding_nonneg {q : ℚ} (hq : 0 ≤ q) : 0 ≤ rounding q := by
  rw [rounding, if_pos hq]
  exact Int.floor_nonneg.mpr (by linarith)

/-- C2 counterexample: eleven decoded frames at constant 40 ms spacing with a
zero container duration return `frame_count = 10` (the final `enumerate`
index) and `duration = 444`, refuting `frame_count == 11` and
`duration ≈ 400`. -/
theorem c2_av_counterexample :
    av_frames_duration 1 1000 ((List.range 11).map fun i : ℕ => (40 * i : ℤ)) 0 = (10, 444) ∧
      (av_frames_duration 1 1000 ((List.range 11).map fun i : ℕ => (40 * i : ℤ)) 0).1 ≠ 11 := by
  have h : av_frames_duration 1 1000 ((List.range 11).map fun i : ℕ => (40 * i : ℤ)) 0
      = (10, 444) := by
    norm_num [av_frames_duration, List.range_succ, rounding]
  exact ⟨h, by rw [h]; norm_num⟩

/-- C2 amended: with zero container duration metadata and `N ≥ 3` decoded
frames at constant spacing (`pts i = s * i` in a 1/1000 s time base, so pts
are in milliseconds), the decode fallback returns the final `enumerate` index
`frame_count = N - 1` (one less than the number of decoded frames) and
`duration = rounding (frame_count * (last_pts / (frame_count - 1)))` computed
from that returned count; for 11 frames at 40 ms spacing this is `(10, 444)`,
not `(11, ≈400)`. -/
theorem c2_av_amended (N s : ℕ) (hN : 3 ≤ N) :
    av_frames_duration 1 1000 ((List.range N).map fun i : ℕ => (s * i : ℤ)) 0 =
      (N - 1, rounding (((N - 1 : ℕ) : ℚ) *
        (((s : ℚ) * ((N - 1 : ℕ) : ℚ)) / (((N - 1 : ℕ) : ℚ) - 1)))) := by
  obtain ⟨M, rfl⟩ : ∃ M, N = M + 3 := ⟨N - 3, by omega⟩
  have hlast : ((List.range (M + 3)).map fun i : ℕ => (s * i : ℤ)).getLast? =
      some ((s : ℤ) * ((M + 2 : ℕ) : ℤ)) := by
    rw [show M + 3 = (M + 2) + 1 from rfl, range_map_getLast?]
  simp only [av_frames_duration, hlast, Option.elim_some, List.length_map,
    List.length_range]
  rw [if_neg (by omega)]
  have hsub : M + 3 - 1 = M + 2 := by omega
  rw [hsub]
  refine Prod.ext rfl ?_
  show rounding _ = rounding _
  congr 1
  push_cast
  ring

/-- C3 counterexample: on a container whose decode yields no frames the facade
assembles the record `(0, 0, 0)` — frames 0, not the claimed single static
frame. -/
theorem c3_av_failure_counterexample :
    get_file_fps_frames_duration (MediaFile.av 1 1000 [] 0 0) = some (0, 0, 0) ∧
      get_file_fps_frames_duration (MediaFile.av 1 1000 [] 0 0) ≠ some (0, 1, 0) := by
  have h : get_file_fps_frames_duration (MediaFile.av 1 1000 [] 0 0) = some (0, 0, 0) := by
    simp [get_file_fps_frames_duration, av_frames_duration]
  refine ⟨h, by rw [h]; simp [Prod.ext_iff]⟩

theorem webp_some_fps_nonneg {durs : List ℕ} {r : ℚ × ℕ × ℕ}
    (h : webp_fps_frames_duration durs = some r) : 0 ≤ r.1 := by
  simp only [webp_fps_frames_duration] at h
  split_ifs at h with h1 h2
  · obtain rfl := (Option.some.injEq _ _).mp h.symm
    norm_num
  · obtain rfl := (Option.some.injEq _ _).mp h.symm
    exact mul_nonneg (div_nonneg (Nat.cast_nonneg _) (Nat.cast_nonneg _)) (by norm_num)
  · rw [durations_gcd_int, Option.some_bind] at h
    split_ifs at h
    obtain rfl := (Option.some.injEq _ _).mp h.symm
    exact mul_nonneg (div_nonneg (div_nonneg (Nat.cast_nonneg _) (Nat.cast_nonneg _))
      (Nat.cast_nonneg _)) (by norm_num)

theorem pillow_fps_nonneg (h : Bool) (durs : List (Option ℕ)) :
    0 ≤ (pillow_fps_frames_duration h durs).1 := by
  cases h with
  | false => norm_num [pillow_fps_frames_duration]
  | true =>
    simp only [pillow_fps_frames_duration, if_pos]
    rw [durations_gcd_int]
    simp only [Option.map_some', Option.getD_some]
    split_ifs <;> positivity

/-- Wellformedness of a decodable stream: its presentation timestamps are
nonnegative (true of any container the decoder accepts). -/
def nonneg_pts : MediaFile → Prop
  | .av _ _ pts _ _ => ∀ p ∈ pts, 0 ≤ p
  | _ => True

theorem av_duration_nonneg {tbn tbd : ℕ} {pts : List ℤ} {meta : ℕ}
    (hpts : ∀ p ∈ pts, 0 ≤ p) : 0 ≤ (av_frames_duration tbn tbd pts meta).2 := by
  rw [av_frames_duration]
  cases hlast : pts.getLast? with
  | none => simp
  | some lastPts =>
    have hlp : (0 : ℤ) ≤ lastPts := hpts _ (getLast?_mem hlast)
    simp only [Option.elim_some]
    by_cases hc : pts.length - 1 ≤ 1 ∨ meta ≠ 0
    · rw [if_pos hc]
      exact Int.natCast_nonneg meta
    · rw [if_neg hc]
      push_neg at hc
      have h2 : (2 : ℕ) ≤ pts.length - 1 := by omega
      have h2q : (2 : ℚ) ≤ ((pts.length - 1 : ℕ) : ℚ) := by exact_mod_cast h2
      refine rounding_nonneg (mul_nonneg (Nat.cast_nonneg _) (div_nonneg
        (mul_nonneg (by exact_mod_cast hlp)
          (mul_nonneg (div_nonneg (Nat.cast_nonneg _) (Nat.cast_nonneg _)) (by norm_num)))
        (by linarith)))

/-- C3 amended: the decode-fallback failure path (no decodable frames) yields
the facade record `(0, 0, 0)` — frames 0, not 1; the `(0, 1, 0)` default
belongs to the generic-raster path without `n_frames` and the chunked-raster
path with fewer than two chunks; and every record the facade returns for a
file with nonnegative timestamps has nonnegative fps and duration (the model
being exact rational arithmetic, no NaN exists). -/
theorem c3_facade_defaults :
    (∀ tbn tbd meta sf, get_file_fps_frames_duration (MediaFile.av tbn tbd [] meta sf) =
      some (0, 0, 0)) ∧
    (∀ durs, get_file_fps_frames_duration (MediaFile.pillow false durs) = some (0, 1, 0)) ∧
    (∀ c, get_file_fps_frames_duration (MediaFile.webp [c]) = some (0, 1, 0)) ∧
    (∀ f r, nonneg_pts f → get_file_fps_frames_duration f = some r →
      0 ≤ r.1 ∧ 0 ≤ r.2.2) := by
  refine ⟨?_, ?_, ?_, ?_⟩
  · intro tbn tbd meta sf
    simp [get_file_fps_frames_duration, av_frames_duration]
  · intro durs
    simp [get_file_fps_frames_duration, pillow_fps_frames_duration]
  · intro c
    simp [get_file_fps_frames_duration, webp_strategy, webp_fps_frames_duration]
  · rintro (⟨fps, frames⟩ | chunks | ⟨h, durs⟩ | ⟨tbn, tbd, pts, meta, sf⟩) r hwf hr
    · simp only [get_file_fps_frames_duration, Option.some.injEq] at hr
      subst hr
      refine ⟨Nat.cast_nonneg _, ?_⟩
      split_ifs
      · exact Nat.cast_nonneg _
      · exact le_refl 0
    · simp only [get_file_fps_frames_duration, webp_strategy, Option.map_eq_some'] at hr
      obtain ⟨a, ha, rfl⟩ := hr
      exact ⟨webp_some_fps_nonneg ha, Nat.cast_nonneg _⟩
    · simp only [get_file_fps_frames_duration, Option.some.injEq] at hr
      subst hr
      exact ⟨pillow_fps_nonneg _ _, Nat.cast_nonneg _⟩
    · simp only [get_file_fps_frames_duration, Option.some.injEq] at hr
      subst hr
      have hd := @av_duration_nonneg tbn tbd pts meta hwf
      refine ⟨?_, by dsimp only; exact_mod_cast hd⟩
      dsimp only
      split_ifs with hpos
      · refine mul_nonneg (div_nonneg (Nat.cast_nonneg _) ?_) (by norm_num)
        exact_mod_cast hpos.le
      · exact le_refl 0

/-- Witness for C3 amended: the nonnegativity clause applied to a concrete
decode-fallback file with timestamps `[0, 50, 100]`. -/
theorem c3_facade_defaults_witness :
    get_file_fps_frames_duration (MediaFile.av 1 1000 [0, 50, 100] 0 0) =
      some (10, 2, 200) ∧
      (0 : ℚ) ≤ ((10 : ℚ), (2 : ℕ), (200 : ℚ)).1 ∧ (0 : ℚ) ≤ ((10 : ℚ), (2 : ℕ), (200 : ℚ)).2.2 := by
  have h : get_file_fps_frames_duration (MediaFile.av 1 1000 [0, 50, 100] 0 0) =
      some (10, 2, 200) := by
    norm_num [get_file_fps_frames_duration, av_frames_duration, List.getLast?, rounding]
  have h2 := c3_facade_defaults.2.2.2 (MediaFile.av 1 1000 [0, 50, 100] 0 0) (10, 2, 200)
    (by intro p hp; fin_cases hp <;> norm_num) h
  exact ⟨h, h2.1, h2.2⟩

/-- C8 counterexample: a two-frame generic-raster file with 10 s per-frame
durations has `fps = 1/10`, so the record's `is_animated` is `false`, while
the public `is_anim` (frame-count criterion) answers `true` on the same
file. -/
theorem c8_counterexample :
    codecInfo (MediaFile.pillow true [some 10000, some 10000]) =
      some ⟨1 / 10, 2, 20000, false⟩ ∧
      is_anim (MediaFile.pillow true [some 10000, some 10000]) = true := by
  constructor
  · norm_num [codecInfo, get_file_fps_frames_duration, pillow_fps_frames_duration,
      collect_durations]
  · decide

/-- C8 amended: the record field `is_animated` equals `fps > 1` for every file
and strategy (it is recomputed from the record's own fps), but the public
predicate `is_anim` tests the probed frame count (`frames > 1`), a different
criterion that can disagree with `fps > 1`. -/
theorem c8_amended :
    (∀ f r, codecInfo f = some r → r.isAnimated = decide (1 < r.fps)) ∧
    (∀ f, is_anim f = decide (1 < get_file_frames_check_anim f)) := by
  constructor
  · intro f r h
    simp only [codecInfo, Option.map_eq_some'] at h
    obtain ⟨a, _, rfl⟩ := h
    rfl
  · intro f
    rfl

/-- Witness for C8 amended at the vector-animation file with 5 fps and 10
frames. -/
theorem c8_amended_witness :
    (⟨5, 10, 2000, true⟩ : MediaRecord).isAnimated =
      decide (1 < (⟨5, 10, 2000, true⟩ : MediaRecord).fps) :=
  c8_amended.1 (MediaFile.tgs 5 10) ⟨5, 10, 2000, true⟩
    (by norm_num [codecInfo, get_file_fps_frames_duration])

/-- C5 (the claim is right, the code is wrong): on the float samples
`(2.5, 4.0)` the guard `all(i for i in durations if likely_int(i))` — the
truthiness of the `likely_int`-passing elements, not `likely_int` itself — is
vacuously satisfied, so the code takes the plain integer-GCD branch and
returns `Fraction(1, 1)`; the documented reduction policy instead probes the
denominators and yields `Fraction(1, 2)` via denominator 6. -/
theorem c5_durations_gcd_bug :
    durations_gcd [⟨5 / 2, true⟩, ⟨4, true⟩] = some 1 ∧
      durations_gcd_spec [⟨5 / 2, true⟩, ⟨4, true⟩] = some (1 / 2) := by
  constructor
  · norm_num [durations_gcd, likely_int, get_five_dec_place, List.range_succ, rounding,
      math_gcd, Int.floor_eq_iff]
  · norm_num [durations_gcd_spec, likely_int, get_five_dec_place, List.range_succ, rounding,
      math_gcd, PyNum.mulNat, List.find?, Int.floor_eq_iff]

/-! Rational GCD algebra (C7). -/

theorem lcm_eq_natLcm (a b : ℕ) : lcm a b = Nat.lcm a b := rfl

theorem fraction_gcd_den_nz (x y : ℚ) : Nat.lcm x.den y.den ≠ 0 :=
  (Nat.lcm_pos (Nat.pos_of_ne_zero x.den_nz) (Nat.pos_of_ne_zero y.den_nz)).ne'

theorem fraction_gcd_reduced (x y : ℚ) :
    ((Int.gcd x.num y.num : ℕ) : ℤ).natAbs.Coprime (Nat.lcm x.den y.den) := by
  rw [Int.natAbs_ofNat]
  show Nat.Coprime (Int.gcd x.num y.num) _
  rw [Int.gcd]
  have hx : Nat.Coprime (Nat.gcd x.num.natAbs y.num.natAbs) x.den :=
    Nat.Coprime.coprime_dvd_left (Nat.gcd_dvd_left _ _) x.reduced
  have hy : Nat.Coprime (Nat.gcd x.num.natAbs y.num.natAbs) y.den :=
    Nat.Coprime.coprime_dvd_left (Nat.gcd_dvd_right _ _) y.reduced
  exact Nat.Coprime.coprime_dvd_right
    (Nat.lcm_dvd (dvd_mul_right _ _) (dvd_mul_left _ _)) (Nat.Coprime.mul_right hx hy)

theorem fraction_gcd_eq_mk' (x y : ℚ) :
    fraction_gcd x y = Rat.mk' (Int.gcd x.num y.num) (Nat.lcm x.den y.den)
      (fraction_gcd_den_nz x y) (fraction_gcd_reduced x y) := by
  rw [fraction_gcd, lcm_eq_natLcm]
  exact Rat.mkRat_self (Rat.mk' (Int.gcd x.num y.num) (Nat.lcm x.den y.den)
    (fraction_gcd_den_nz x y) (fraction_gcd_reduced x y))

theorem fraction_gcd_num (x y : ℚ) :
    (fraction_gcd x y).num = ((Int.gcd x.num y.num : ℕ) : ℤ) := by
  rw [fraction_gcd_eq_mk']

theorem fraction_gcd_den (x y : ℚ) :
    (fraction_gcd x y).den = Nat.lcm x.den y.den := by
  rw [fraction_gcd_eq_mk']

theorem nat_lcm_assoc (a b c : ℕ) : Nat.lcm (Nat.lcm a b) c = Nat.lcm a (Nat.lcm b c) :=
  Nat.dvd_antisymm
    (Nat.lcm_dvd
      (Nat.lcm_dvd (Nat.dvd_lcm_left _ _)
        ((Nat.dvd_lcm_left b c).trans (Nat.dvd_lcm_right _ _)))
      ((Nat.dvd_lcm_right b c).trans (Nat.dvd_lcm_right _ _)))
    (Nat.lcm_dvd
      ((Nat.dvd_lcm_left a b).trans (Nat.dvd_lcm_left _ _))
      (Nat.lcm_dvd ((Nat.dvd_lcm_right a b).trans (Nat.dvd_lcm_left _ _))
        (Nat.dvd_lcm_right _ _)))

theorem fraction_gcd_assoc (x y z : ℚ) :
    fraction_gcd (fraction_gcd x y) z = fraction_gcd x (fraction_gcd y z) := by
  apply Rat.ext
  · rw [fraction_gcd_num, fraction_gcd_num, fraction_gcd_num, fraction_gcd_num]
    simp only [Int.gcd, Int.natAbs_ofNat]
    rw [Nat.gcd_assoc]
  · rw [fraction_gcd_den, fraction_gcd_den, fraction_gcd_den, fraction_gcd_den,
      nat_lcm_assoc]

theorem fraction_gcd_comm (x y : ℚ) : fraction_gcd x y = fraction_gcd y x := by
  apply Rat.ext
  · rw [fraction_gcd_num, fraction_gcd_num, Int.gcd_comm]
  · rw [fraction_gcd_den, fraction_gcd_den, Nat.lcm_comm]

theorem foldl_fraction_gcd_perm {l l' : List ℚ} (p : l.Perm l') :
    ∀ a : ℚ, l.foldl fraction_gcd a = l'.foldl fraction_gcd a := by
  induction p with
  | nil => intro a; rfl
  | cons x _ ih => intro a; simp only [List.foldl_cons]; exact ih _
  | swap x y t =>
    intro a
    simp only [List.foldl_cons]
    rw [fraction_gcd_assoc, fraction_gcd_assoc, fraction_gcd_comm y x]
  | trans _ _ ih1 ih2 => intro a; rw [ih1, ih2]

theorem fractions_gcd_perm {l l' : List ℚ} (p : l.Perm l') :
    fractions_gcd l = fractions_gcd l' := by
  induction p with
  | nil => rfl
  | cons x p' _ =>
    simp only [fractions_gcd]
    exact foldl_fraction_gcd_perm p' x
  | swap x y t =>
    simp only [fractions_gcd, List.foldl_cons]
    rw [fraction_gcd_comm y x]
  | trans _ _ ih1 ih2 => rw [ih1, ih2]

/-- C7: `fraction_gcd` equals `gcd(numerators) / lcm(denominators)` for every
pair of rationals, is associative and commutative, and consequently the
left-to-right fold `fractions_gcd` returns the same tick on every permutation
of a non-empty list of positive integer durations. -/
theorem c7_fraction_gcd_algebra :
    (∀ x y : ℚ, fraction_gcd x y =
      ((Int.gcd x.num y.num : ℕ) : ℚ) / ((Nat.lcm x.den y.den : ℕ) : ℚ)) ∧
    (∀ x y z : ℚ, fraction_gcd (fraction_gcd x y) z = fraction_gcd x (fraction_gcd y z)) ∧
    (∀ x y : ℚ, fraction_gcd x y = fraction_gcd y x) ∧
    (∀ D D' : List ℕ, D.Perm D' → D ≠ [] → (∀ d ∈ D, 0 < d) →
      fractions_gcd (D.map fun n : ℕ => (n : ℚ)) =
        fractions_gcd (D'.map fun n : ℕ => (n : ℚ))) := by
  refine ⟨?_, fraction_gcd_assoc, fraction_gcd_comm, ?_⟩
  · intro x y
    rw [fraction_gcd, lcm_eq_natLcm, Rat.mkRat_eq_div]
    norm_num
  · intro D D' p _ _
    exact fractions_gcd_perm (p.map _)

/-- Witness for C7's permutation clause on the duration list `[2, 3]`. -/
theorem c7_fraction_gcd_algebra_witness :
    fractions_gcd ([2, 3].map fun n : ℕ => (n : ℚ)) =
      fractions_gcd ([3, 2].map fun n : ℕ => (n : ℚ)) :=
  c7_fraction_gcd_algebra.2.2.2 [2, 3] [3, 2] (List.Perm.swap 3 2 []) (by decide) (by decide)

/-! Digit analysis of `likely_int` (C9). -/

theorem nat_floor_mod_fract {q : ℚ} (hq : 0 ≤ q) (k : ℕ) (hk : 1 ≤ k) :
    ⌊q * 10 ^ k⌋₊ % 10 = ⌊Int.fract q * 10 ^ k⌋₊ % 10 := by
  have hcast : ((⌊q⌋₊ : ℚ)) = (⌊q⌋ : ℚ) := by
    exact_mod_cast congrArg (fun z : ℤ => (z : ℚ)) (Int.natCast_floor_eq_floor hq)
  have hsplit : q * 10 ^ k = Int.fract q * 10 ^ k + ((⌊q⌋₊ * 10 ^ k : ℕ) : ℚ) := by
    rw [Int.fract]
    push_cast
    rw [hcast]
    ring
  rw [hsplit, Nat.floor_add_nat (mul_nonneg (Int.fract_nonneg q) (by positivity))]
  obtain ⟨k', rfl⟩ : ∃ k', k = k' + 1 := ⟨k - 1, by omega⟩
  rw [show ⌊q⌋₊ * 10 ^ (k' + 1) = ⌊q⌋₊ * 10 ^ k' * 10 from by ring]
  rw [Nat.add_mul_mod_self_right]

theorem nat_floor_pow_div {f : ℚ} (_hf : 0 ≤ f) {j : ℕ} (hj : j ≤ 5) :
    ⌊f * 10 ^ j⌋₊ = ⌊f * 10 ^ 5⌋₊ / 10 ^ (5 - j) := by
  rw [← Nat.floor_div_nat]
  congr 1
  push_cast
  have h10 : ((10 : ℚ)) ^ j * 10 ^ (5 - j) = 10 ^ 5 := by
    rw [← pow_add]
    congr 1
    omega
  rw [eq_div_iff (by positivity : ((10 : ℚ) ^ (5 - j)) ≠ 0), mul_assoc, h10]

theorem likely_int_float_iff {q : ℚ} (hq : 0 ≤ q) :
    likely_int ⟨q, true⟩ = true ↔
      Int.fract q < 1 / 100000 ∨ (99999 : ℚ) / 100000 ≤ Int.fract q := by
  have hf0 : (0 : ℚ) ≤ Int.fract q := Int.fract_nonneg q
  have hf1 : Int.fract q < 1 := Int.fract_lt_one q
  have hDlt : ⌊Int.fract q * 10 ^ 5⌋₊ < 100000 := by
    rw [Nat.floor_lt (mul_nonneg hf0 (by norm_num))]
    push_cast
    nlinarith [hf1]
  have hdigit : ∀ j : ℕ, 1 ≤ j → j ≤ 5 →
      ⌊q * 10 ^ j⌋₊ % 10 = ⌊Int.fract q * 10 ^ 5⌋₊ / 10 ^ (5 - j) % 10 := by
    intro j h1 h5
    rw [nat_floor_mod_fract hq j h1, nat_floor_pow_div hf0 h5]
  have hlist : get_five_dec_place q =
      [⌊Int.fract q * 10 ^ 5⌋₊ / 10 ^ 4 % 10, ⌊Int.fract q * 10 ^ 5⌋₊ / 10 ^ 3 % 10,
        ⌊Int.fract q * 10 ^ 5⌋₊ / 10 ^ 2 % 10, ⌊Int.fract q * 10 ^ 5⌋₊ / 10 ^ 1 % 10,
        ⌊Int.fract q * 10 ^ 5⌋₊ / 10 ^ 0 % 10] := by
    simp only [get_five_dec_place, show List.range 5 = [0, 1, 2, 3, 4] from rfl,
      List.map_cons, List.map_nil]
    rw [show (0 : ℕ) + 1 = 1 from rfl, show (1 : ℕ) + 1 = 2 from rfl,
      show (2 : ℕ) + 1 = 3 from rfl, show (3 : ℕ) + 1 = 4 from rfl,
      show (4 : ℕ) + 1 = 5 from rfl,
      hdigit 1 (by norm_num) (by norm_num), hdigit 2 (by norm_num) (by norm_num),
      hdigit 3 (by norm_num) (by norm_num), hdigit 4 (by norm_num) (by norm_num),
      hdigit 5 (by norm_num) (by norm_num)]
  simp only [likely_int, if_pos, Bool.or_eq_true, decide_eq_true_eq, hlist,
    List.cons.injEq, and_true]
  constructor
  · rintro (⟨h1, h2, h3, h4, h5⟩ | ⟨h1, h2, h3, h4, h5⟩)
    · right
      have h99 : 99999 ≤ ⌊Int.fract q * 10 ^ 5⌋₊ := by omega
      have hfl : ((99999 : ℕ) : ℚ) ≤ Int.fract q * 10 ^ 5 :=
        le_trans (by exact_mod_cast h99) (Nat.floor_le (mul_nonneg hf0 (by norm_num)))
      push_cast at hfl
      norm_num at hfl ⊢
      rw [div_le_iff (by norm_num : (0 : ℚ) < 100000)]
      linarith
    · left
      have h0 : ⌊Int.fract q * 10 ^ 5⌋₊ = 0 := by omega
      have hlt1 : Int.fract q * 10 ^ 5 < 1 := by
        have hup := Nat.lt_floor_add_one (Int.fract q * 10 ^ 5)
        rw [h0] at hup
        simpa using hup
      norm_num at hlt1 ⊢
      rw [lt_div_iff (by norm_num : (0 : ℚ) < 100000)]
      linarith
  · rintro (hlt | hge)
    · right
      rw [lt_div_iff (by norm_num : (0 : ℚ) < 100000)] at hlt
      have h0 : ⌊Int.fract q * 10 ^ 5⌋₊ = 0 := by
        rw [Nat.floor_eq_zero]
        norm_num
        linarith
      rw [h0]
      norm_num
    · left
      rw [div_le_iff (by norm_num : (0 : ℚ) < 100000)] at hge
      have h99 : 99999 ≤ ⌊Int.fract q * 10 ^ 5⌋₊ := by
        apply Nat.le_floor
        push_cast
        norm_num
        linarith
      have hD : ⌊Int.fract q * 10 ^ 5⌋₊ = 99999 := by omega
      rw [hD]
      norm_num

/-- C9: for a nonnegative float, `likely_int` accepts exactly when the first
five fractional digits are `00000` or `99999` — equivalently the fractional
part is below `10⁻⁵` or at least `0.99999`; every `int` value (hence every
exact integer) is accepted; and `12.345` is rejected. -/
theorem c9_likely_int :
    (∀ q : ℚ, 0 ≤ q → (likely_int ⟨q, true⟩ = true ↔
      Int.fract q < 1 / 100000 ∨ (99999 : ℚ) / 100000 ≤ Int.fract q)) ∧
    (∀ v : ℚ, likely_int ⟨v, false⟩ = true) ∧
    likely_int ⟨2469 / 200, true⟩ = false := by
  refine ⟨fun q hq => likely_int_float_iff hq, fun v => rfl, ?_⟩
  have hfr : Int.fract ((2469 : ℚ) / 200) = 69 / 200 := by
    rw [Int.fract, show ⌊(2469 : ℚ) / 200⌋ = 12 from by
      rw [Int.floor_eq_iff]
      norm_num]
    norm_num
  rw [Bool.eq_false_iff]
  intro hcontra
  have h := (@likely_int_float_iff (2469 / 200) (by norm_num)).mp hcontra
  rw [hfr] at h
  rcases h with h | h <;> norm_num at h

/-- Witness for C9's float clause at the sample `q = 1/2`. -/
theorem c9_likely_int_witness :
    likely_int ⟨1 / 2, true⟩ = true ↔
      Int.fract ((1 : ℚ) / 2) < 1 / 100000 ∨ (99999 : ℚ) / 100000 ≤ Int.fract ((1 : ℚ) / 2) :=
  c9_likely_int.1 (1 / 2) (by norm_num)

/-- Witness for C2 amended at `N = 3`, `s = 10`. -/
theorem c2_av_amended_witness :
    av_frames_duration 1 1000 ((List.range 3).map fun i : ℕ => (10 * i : ℤ)) 0 =
      (3 - 1, rounding (((3 - 1 : ℕ) : ℚ) *
        (((10 : ℚ) * ((3 - 1 : ℕ) : ℚ)) / (((3 - 1 : ℕ) : ℚ) - 1)))) :=
  c2_av_amended 3 10 (by norm_num)

end StickerConvert
